import Mathlib

/-!
Formal model of the persistent project metadata store implemented in
`src/core/project_manager.py` of the code-mcp repository.

The store keeps one JSON document with the collections `plans`, `docs`,
`todos`, `recent_changes`, `file_status` and `list_variables`.  Every public
operation of `ProjectManager` is a load-mutate-save cycle over that document;
we model each operation as a pure function from the parsed document (plus the
relevant inputs: the filesystem, the clock, the arguments) to the pair of its
returned value and the document that is persisted when the call finishes
(identical to the input document whenever the source does not call
`_save_meta`).  The interaction between `_load_meta`, `_ensure_meta_file`
and the raw on-disk file is modelled separately by `loadMeta` over an
abstract `DiskState`.

Python specifics that the model keeps faithfully:
* dictionaries are insertion-ordered association lists; assignment replaces
  the value of an existing key in place, deletion removes it;
* `str.replace(old, new)` replaces every non-overlapping occurrence from the
  left (`replaceAll`);
* f-string decimal formatting (`decRepr`, and `pad3` for `{n:03d}`);
* truthiness tests on strings treat the empty string as false.

The SHA-256 digest of `_calculate_file_hash` is abstracted by `sha256Hex`,
a deterministic injective digest function that never returns the empty
string (the empty string is reserved for the missing-file result, exactly
as in the source); no claim depends on anything else about SHA-256.
-/

namespace CodeMcp

/-! ### Decimal rendering (Python `str(n)` and `f"{n:03d}"`) -/

/-- The character for a decimal digit, `chr(48 + d)`. -/
def digitChar (n : Nat) : Char := Char.ofNat (48 + n)

/-- Fuel-indexed decimal digit list; `fuel > n` is always enough. -/
def decDigitsAux : Nat → Nat → List Char
  | 0, _ => []
  | fuel + 1, n =>
    if n < 10 then [digitChar n]
    else decDigitsAux fuel (n / 10) ++ [digitChar (n % 10)]

/-- The decimal digits of `n`, most significant first. -/
def decDigits (n : Nat) : List Char := decDigitsAux (n + 1) n

/-- Python `str(n)` for a natural number. -/
def decRepr (n : Nat) : String := String.mk (decDigits n)

/-- Python `f"{n:03d}"`: zero-pad the decimal rendering to width 3. -/
def pad3 (n : Nat) : String :=
  if n < 10 then "00" ++ decRepr n
  else if n < 100 then "0" ++ decRepr n
  else decRepr n

/-- Numeric value of a digit character. -/
def charVal (c : Char) : Nat := c.toNat - 48

/-- Value of a digit string read left to right (leading zeros allowed). -/
def decValue (l : List Char) : Nat := l.foldl (fun a c => 10 * a + charVal c) 0

theorem decDigitsAux_congr : ∀ (n f g : Nat), n < f → n < g →
    decDigitsAux f n = decDigitsAux g n := by
  intro n
  induction n using Nat.strong_induction_on with
  | _ n ih =>
    intro f g hf hg
    match f, g with
    | f' + 1, g' + 1 =>
      simp only [decDigitsAux]
      by_cases h10 : n < 10
      · simp [h10]
      · have hdiv : n / 10 < n := Nat.div_lt_self (by omega) (by omega)
        simp only [h10, if_false]
        rw [ih (n / 10) hdiv f' g' (by omega) (by omega)]

theorem decDigitsAux_eq_decDigits {f n : Nat} (h : n < f) :
    decDigitsAux f n = decDigits n :=
  decDigitsAux_congr n f (n + 1) h (Nat.lt_succ_self n)

theorem charVal_digitChar {n : Nat} (h : n < 10) : charVal (digitChar n) = n := by
  interval_cases n <;> decide

theorem decValue_append_digit (l : List Char) (c : Char) :
    decValue (l ++ [c]) = 10 * decValue l + charVal c := by
  simp [decValue, List.foldl_append]

theorem decDigits_step {n : Nat} (h10 : ¬ n < 10) :
    decDigits n = decDigits (n / 10) ++ [digitChar (n % 10)] := by
  have hstep : decDigits n =
      if n < 10 then [digitChar n]
      else decDigitsAux n (n / 10) ++ [digitChar (n % 10)] := rfl
  have hdiv : n / 10 < n := Nat.div_lt_self (by omega) (by omega)
  rw [hstep, if_neg h10, decDigitsAux_eq_decDigits hdiv]

theorem decValue_decDigits (n : Nat) : decValue (decDigits n) = n := by
  induction n using Nat.strong_induction_on with
  | _ n ih =>
    by_cases h10 : n < 10
    · have hstep : decDigits n = [digitChar n] := by
        show (if n < 10 then [digitChar n]
          else decDigitsAux n (n / 10) ++ [digitChar (n % 10)]) = _
        rw [if_pos h10]
      rw [hstep]
      simpa [decValue] using charVal_digitChar h10
    · have hdiv : n / 10 < n := Nat.div_lt_self (by omega) (by omega)
      rw [decDigits_step h10, decValue_append_digit, ih (n / 10) hdiv,
          charVal_digitChar (Nat.mod_lt n (by omega))]
      omega

theorem decValue_zero_cons (l : List Char) :
    decValue (('0' : Char) :: l) = decValue l := rfl

theorem data_decRepr (n : Nat) : (decRepr n).data = decDigits n := rfl

theorem decValue_pad3 (n : Nat) : decValue (pad3 n).data = n := by
  by_cases h10 : n < 10
  · simp only [pad3, h10, if_true]
    rw [String.data_append, data_decRepr]
    show decValue ('0' :: '0' :: decDigits n) = n
    rw [decValue_zero_cons, decValue_zero_cons, decValue_decDigits]
  · by_cases h100 : n < 100
    · simp only [pad3, h10, if_false, h100, if_true]
      rw [String.data_append, data_decRepr]
      show decValue ('0' :: decDigits n) = n
      rw [decValue_zero_cons, decValue_decDigits]
    · simp only [pad3, h10, if_false, h100]
      rw [data_decRepr, decValue_decDigits]

/-! ### Association lists: Python dict as an insertion-ordered key map -/

variable {α : Type}

/-- Python `d.get(k)` / `d[k]` lookup. -/
def alistGet : List (String × α) → String → Option α
  | [], _ => none
  | (k, v) :: tl, key => if k == key then some v else alistGet tl key

/-- Python `d[k] = v`: replace in place if the key exists, else append. -/
def alistSet : List (String × α) → String → α → List (String × α)
  | [], key, v => [(key, v)]
  | (k, w) :: tl, key, v =>
    if k == key then (key, v) :: tl else (k, w) :: alistSet tl key v

/-- Python `del d[k]` (the key is assumed to occur at most once). -/
def alistDel : List (String × α) → String → List (String × α)
  | [], _ => []
  | (k, w) :: tl, key => if k == key then tl else (k, w) :: alistDel tl key

theorem alistGet_set (l : List (String × α)) (k : String) (v : α) :
    alistGet (alistSet l k v) k = some v := by
  induction l with
  | nil => simp [alistSet, alistGet]
  | cons hd tl ih =>
    obtain ⟨k', v'⟩ := hd
    by_cases h : k' == k
    · simp [alistSet, h, alistGet]
    · simp [alistSet, h, alistGet, ih]

/-! ### Python `str.replace` (used by `create_todo` for the legacy lookup) -/

/-- Does `pat` occur as a contiguous sublist of the second argument? -/
def hasSub (pat : List Char) : List Char → Bool
  | [] => pat.isPrefixOf ([] : List Char)
  | c :: tl => pat.isPrefixOf (c :: tl) || hasSub pat tl

/-- Fuel-indexed core of Python `s.replace(pat, rep)`: scan left to right,
replacing every non-overlapping occurrence.  `fuel > s.length` is always
enough when `pat` is nonempty. -/
def replaceAllAux (pat rep : List Char) : Nat → List Char → List Char
  | _, [] => []
  | 0, s => s
  | fuel + 1, c :: tl =>
    if !pat.isEmpty && pat.isPrefixOf (c :: tl) then
      rep ++ replaceAllAux pat rep fuel ((c :: tl).drop pat.length)
    else
      c :: replaceAllAux pat rep fuel tl

/-- Python `s.replace(pat, rep)` on character lists (`pat` nonempty). -/
def replaceAll (pat rep s : List Char) : List Char :=
  replaceAllAux pat rep (s.length + 1) s

theorem isPrefixOf_append (l t : List Char) : l.isPrefixOf (l ++ t) = true := by
  induction l with
  | nil => cases t <;> rfl
  | cons c tl ih => simp [List.isPrefixOf, ih]

theorem isPrefixOf_exists_append {l s : List Char} (h : l.isPrefixOf s = true) :
    ∃ t, s = l ++ t := by
  induction l generalizing s with
  | nil => exact ⟨s, rfl⟩
  | cons c tl ih =>
    match s with
    | [] => simp [List.isPrefixOf] at h
    | d :: s' =>
      simp only [List.isPrefixOf, Bool.and_eq_true, beq_iff_eq] at h
      obtain ⟨t, ht⟩ := ih h.2
      exact ⟨t, by simp [h.1, ht]⟩

theorem replaceAllAux_congr (pat rep : List Char) :
    ∀ (f : Nat) (s : List Char) (g : Nat), s.length < f → s.length < g →
    replaceAllAux pat rep f s = replaceAllAux pat rep g s := by
  intro f
  induction f with
  | zero => intro s g hf _; omega
  | succ f' ih =>
    intro s g hf hg
    match s with
    | [] => cases g <;> rfl
    | c :: tl =>
      match g with
      | 0 => simp at hg
      | g' + 1 =>
        simp only [replaceAllAux]
        by_cases hpre : (!pat.isEmpty && pat.isPrefixOf (c :: tl)) = true
        · simp only [hpre, if_true]
          have hpl : 1 ≤ pat.length := by
            rcases Bool.and_eq_true_iff.1 hpre with ⟨h1, _⟩
            cases pat with
            | nil => simp [List.isEmpty] at h1
            | cons _ _ => simp
          have hdl : ((c :: tl).drop pat.length).length < f' ∧
              ((c :: tl).drop pat.length).length < g' := by
            simp only [List.length_drop, List.length_cons]
            simp only [List.length_cons] at hf hg
            omega
          rw [ih _ g' hdl.1 hdl.2]
        · have hb : (!pat.isEmpty && pat.isPrefixOf (c :: tl)) = false := by
            simp only [Bool.not_eq_true] at hpre
            exact hpre
          simp only [hb, Bool.false_eq_true, if_false]
          simp only [List.length_cons] at hf hg
          rw [ih tl g' (by omega) (by omega)]

theorem replaceAll_of_not_hasSub {pat s : List Char} (rep : List Char)
    (h : hasSub pat s = false) : replaceAll pat rep s = s := by
  induction s with
  | nil => rfl
  | cons c tl ih =>
    simp only [hasSub, Bool.or_eq_false_iff] at h
    show replaceAllAux pat rep (tl.length + 1 + 1) (c :: tl) = c :: tl
    simp only [replaceAllAux, h.1, Bool.and_false, if_false]
    exact congrArg (List.cons c) (ih h.2)

theorem replaceAll_append_of_prefix {pat t : List Char} (rep : List Char)
    (hne : pat ≠ []) (h : hasSub pat t = false) :
    replaceAll pat rep (pat ++ t) = rep ++ t := by
  match pat, hne with
  | p :: ps, _ =>
    show replaceAllAux (p :: ps) rep (((p :: ps) ++ t).length + 1)
        ((p :: ps) ++ t) = rep ++ t
    have hcons : (p :: ps) ++ t = p :: (ps ++ t) := rfl
    rw [hcons]
    simp only [replaceAllAux]
    have hpre : (p :: ps).isPrefixOf (p :: (ps ++ t)) = true := by
      rw [← hcons]; exact isPrefixOf_append _ _
    simp only [hpre, List.isEmpty, Bool.not_false, Bool.and_self, if_true,
      Bool.true_and]
    have hdrop : (p :: (ps ++ t)).drop (p :: ps).length = t := by
      rw [← hcons]
      exact List.drop_left (p :: ps) t
    rw [hdrop]
    congr 1
    rw [replaceAllAux_congr (p :: ps) rep ((p :: (ps ++ t)).length) t (t.length + 1)
        (by simp only [List.length_cons, List.length_append]; omega) (by omega)]
    exact replaceAll_of_not_hasSub rep h

/-! ### The document data model -/

/-- One plan record.  All keys other than `content` may be missing from a
hand-written document, so they are modelled as optional. -/
structure PlanR where
  id : Option String
  content : String
  title : Option String := none
  directory : Option String := none
  created_at : Option String := none
  updated_at : Option String := none
  deriving Repr, DecidableEq

/-- The `plans` collection: current list schema or legacy mapping
(directory to content) schema. -/
inductive Plans where
  | list (ps : List PlanR)
  | dict (ps : List (String × String))
  deriving Repr, DecidableEq

/-- Is the `plans` collection in the current list schema? -/
def Plans.isListShape : Plans → Bool
  | .list _ => true
  | .dict _ => false

/-- One todo record, as produced by the `Todo` dataclass plus the optional
keys added by `update_todo`. -/
structure TodoR where
  id : String
  content : String
  related_plan : String
  status : String
  created_at : String
  completed_at : Option String := none
  git_log : Option String := none
  deriving Repr, DecidableEq

/-- One `file_status` record; `file_hash` may be missing in records of the
old format, and the two flags only appear on values returned by
`get_file_status`, never in the persisted document. -/
structure FileRec where
  audited : Bool
  audited_at : String
  file_hash : Option String := none
  modified_after_audit : Option Bool := none
  current_hash : Option String := none
  deriving Repr, DecidableEq

/-- One list-variable record; the source in `src/core` never writes the
`need_user_confirmation` key, so its absence is `none`. -/
structure ListVarR where
  items : List String
  need_user_confirmation : Option Bool := none
  created_at : String
  updated_at : String
  deriving Repr, DecidableEq

/-- The `recent_changes` object. -/
structure RecentChanges where
  current : List String
  archived : List String
  deriving Repr, DecidableEq

/-- The whole persisted document. -/
structure Meta where
  plans : Plans
  docs : List (String × String)
  todos : List TodoR
  recent_changes : RecentChanges
  file_status : List (String × FileRec)
  list_variables : List (String × ListVarR)
  deriving Repr, DecidableEq

/-- The default document written by `_ensure_meta_file` (note that the
default `plans` value is the empty mapping, i.e. the legacy shape). -/
def defaultMeta : Meta :=
  { plans := .dict []
    docs := []
    todos := []
    recent_changes := { current := [], archived := [] }
    file_status := []
    list_variables := [] }

/-! ### Disk state and `_load_meta` -/

/-- The three observationally distinct states of the on-disk meta file. -/
inductive DiskState where
  | absent
  | invalid
  | valid (m : Meta)
  deriving Repr, DecidableEq

/-- Errors surfaced by the store. -/
inductive PMError where
  | valueError (msg : String)
  | jsonDecodeError
  | fileNotFoundError
  deriving Repr, DecidableEq

/-- `open` plus `json.load`: raises on a missing or unparsable file. -/
def readParse : DiskState → Except PMError Meta
  | .absent => .error .fileNotFoundError
  | .invalid => .error .jsonDecodeError
  | .valid m => .ok m

/-- `_ensure_meta_file`: writes the default document only when the file
does not exist. -/
def ensureMetaFile : DiskState → DiskState
  | .absent => .valid defaultMeta
  | d => d

/-- `_load_meta`: try to read; on failure run `_ensure_meta_file` and read
again, re-raising whatever the second read raises. -/
def loadMeta (d : DiskState) : Except PMError (Meta × DiskState) :=
  match readParse d with
  | .ok m => .ok (m, d)
  | .error _ =>
    let d1 := ensureMetaFile d
    match readParse d1 with
    | .ok m => .ok (m, d1)
    | .error e => .error e

/-! ### Plan operations

Every operation models one public method of `ProjectManager`: it receives
the parsed document (and a `now` timestamp where the source calls
`datetime.now().isoformat()`) and returns the method's result together with
the document persisted at the end of the call - the input document whenever
the source returns without calling `_save_meta`. -/

/-- `_convert_plans_to_list` applied to the value of `meta["plans"]`:
the legacy mapping becomes a list of records with synthetic ids. -/
def legacyConvert (old : List (String × String)) (now : String) : List PlanR :=
  old.map (fun kv =>
    { id := some ("legacy_" ++ kv.1)
      content := kv.2
      directory := some kv.1
      title := some ("Legacy: " ++ kv.1)
      created_at := some now
      updated_at := some now })

/-- The list that `meta["plans"]` holds after the conversion-if-needed
preamble shared by `create_plan`, `update_plan` and `delete_plan`. -/
def plansToList (p : Plans) (now : String) : List PlanR :=
  match p with
  | .list ps => ps
  | .dict old => legacyConvert old now

/-- `create_plan`: convert if needed, count the records that carry an `id`
key, and append a fresh `plan_{count+1:03d}` record. -/
def createPlan (m : Meta) (content : String) (title : Option String)
    (now : String) : String × Meta :=
  let ps := plansToList m.plans now
  let existingIds := ps.filterMap (fun p => p.id)
  let planNumber := existingIds.length + 1
  let planId := "plan_" ++ pad3 planNumber
  let newPlan : PlanR :=
    { id := some planId
      content := content
      title := some (title.getD ("Plan " ++ decRepr planNumber))
      created_at := some now
      updated_at := some now }
  (planId, { m with plans := .list (ps ++ [newPlan]) })

/-- `read_plan`: no conversion; the legacy shape is translated on the fly
and nothing is saved. -/
def readPlan (m : Meta) (planId : String) : Option PlanR × Meta :=
  match m.plans with
  | .list ps => (ps.find? (fun p => p.id == some planId), m)
  | .dict old =>
    ((old.find? (fun kv => ("legacy_" ++ kv.1) == planId)).map (fun kv =>
      { id := some planId, content := kv.2, directory := some kv.1 }), m)

/-- `read_all_plans`: converts the legacy shape in memory only; the
document is never saved. -/
def readAllPlans (m : Meta) (now : String) : List PlanR × Meta :=
  (plansToList m.plans now, m)

/-- Helper for the `update_plan` loop: rewrite the first record whose `id`
matches, or report that none does. -/
def updateFirstPlan (planId content : String) (title : Option String)
    (now : String) : List PlanR → Option (List PlanR)
  | [] => none
  | p :: tl =>
    if p.id == some planId then
      some ({ p with
                content := content
                title := match title with | some t => some t | none => p.title
                updated_at := some now } :: tl)
    else (updateFirstPlan planId content title now tl).map (p :: ·)

/-- `update_plan`: converts if needed, then rewrites the first matching
record and saves; an unsuccessful update saves nothing (so a legacy-shaped
document stays legacy on disk). -/
def updatePlan (m : Meta) (planId content : String) (title : Option String)
    (now : String) : Bool × Meta :=
  match updateFirstPlan planId content title now (plansToList m.plans now) with
  | some ps => (true, { m with plans := .list ps })
  | none => (false, m)

/-- `delete_plan`: converts if needed, finds the first matching record,
raises a `ValueError` carrying the count of linked todos when any todo still
references the plan, and otherwise removes the record and saves.  A plan id
that matches no record yields `False` without saving. -/
def deletePlan (m : Meta) (planId : String) (now : String) :
    Except PMError Bool × Meta :=
  match (plansToList m.plans now).findIdx? (fun p => p.id == some planId) with
  | some i =>
    if (m.todos.filter (fun t => t.related_plan == planId)).length == 0 then
      (.ok true, { m with plans := .list ((plansToList m.plans now).eraseIdx i) })
    else
      (.error (.valueError ("Cannot delete plan " ++ planId ++ ": " ++
        decRepr (m.todos.filter (fun t => t.related_plan == planId)).length ++
        " todos are linked to it")), m)
  | none => (.ok false, m)

/-! ### Doc and recent-changes operations -/

/-- `create_doc`: unconditional upsert. -/
def createDoc (m : Meta) (dir content : String) : Bool × Meta :=
  (true, { m with docs := alistSet m.docs dir content })

/-- `update_doc`: only rewrites an existing entry. -/
def updateDoc (m : Meta) (dir content : String) : Bool × Meta :=
  if (alistGet m.docs dir).isSome then
    (true, { m with docs := alistSet m.docs dir content })
  else (false, m)

/-- `update_recent_changes`: wholesale replacement. -/
def updateRecentChanges (m : Meta) (current archived : List String) :
    Bool × Meta :=
  (true, { m with recent_changes := { current := current, archived := archived } })

/-! ### Todo operations -/

/-- The string `"legacy_"` as characters, for the legacy lookup. -/
def legacyTag : List Char := "legacy_".data

/-- `create_todo`: verify that `related_plan` resolves (list shape: some
record carries that id; legacy shape: the id starts with `legacy_` and the
id with every `legacy_` occurrence removed - Python `str.replace` - is a
directory key), then insert a fresh pending `todo_{count+1:03d}` at the
requested end.  An unresolved plan raises and nothing is saved. -/
def createTodo (m : Meta) (content related position now : String) :
    Except PMError String × Meta :=
  let planExists :=
    match m.plans with
    | .list ps => ps.any (fun p => p.id == some related)
    | .dict old =>
      if legacyTag.isPrefixOf related.data then
        let directory : String := ⟨replaceAll legacyTag [] related.data⟩
        old.any (fun kv => kv.1 == directory)
      else false
  if planExists then
    let todoId := "todo_" ++ pad3 (m.todos.length + 1)
    let todo : TodoR :=
      { id := todoId, content := content, related_plan := related
        status := "pending", created_at := now }
    let todos := if position == "start" then todo :: m.todos else m.todos ++ [todo]
    (.ok todoId, { m with todos := todos })
  else
    (.error (.valueError ("Plan ID not found: " ++ related)), m)

/-- `read_todos`: filter by status; nothing is saved. -/
def readTodos (m : Meta) (status : String) : List TodoR × Meta :=
  (m.todos.filter (fun t => t.status == status), m)

/-- The in-place mutation `update_todo` performs on the matching record:
the status is stored verbatim; `completed_at` (and `git_log` when a truthy
one is supplied) is written only on a transition to `"completed"`. -/
def applyTodoUpdate (status : String) (gitLog : Option String) (now : String)
    (t : TodoR) : TodoR :=
  let t1 := { t with status := status }
  if status == "completed" then
    let t2 := { t1 with completed_at := some now }
    match gitLog with
    | some g => if g == "" then t2 else { t2 with git_log := some g }
    | none => t2
  else t1

/-- Helper for the `update_todo` loop: rewrite the first matching record. -/
def updateFirstTodo (todoId status : String) (gitLog : Option String)
    (now : String) : List TodoR → Option (List TodoR)
  | [] => none
  | t :: tl =>
    if t.id == todoId then some (applyTodoUpdate status gitLog now t :: tl)
    else (updateFirstTodo todoId status gitLog now tl).map (t :: ·)

/-- `update_todo`: rewrite the first matching record and save, or return
`False` without saving. -/
def updateTodo (m : Meta) (todoId status : String) (gitLog : Option String)
    (now : String) : Bool × Meta :=
  match updateFirstTodo todoId status gitLog now m.todos with
  | some ts => (true, { m with todos := ts })
  | none => (false, m)

/-- Helper for the `delete_todo` loop: drop the first matching record. -/
def removeFirstTodo (todoId : String) : List TodoR → Option (List TodoR)
  | [] => none
  | t :: tl =>
    if t.id == todoId then some tl
    else (removeFirstTodo todoId tl).map (t :: ·)

/-- `delete_todo`. -/
def deleteTodo (m : Meta) (todoId : String) : Bool × Meta :=
  match removeFirstTodo todoId m.todos with
  | some ts => (true, { m with todos := ts })
  | none => (false, m)

/-- Helper for `move_todo`: pop the first matching record, keeping the
rest in order. -/
def extractTodo (todoId : String) : List TodoR → Option (TodoR × List TodoR)
  | [] => none
  | t :: tl =>
    if t.id == todoId then some (t, tl)
    else (extractTodo todoId tl).map (fun r => (r.1, t :: r.2))

/-- `move_todo`: pop-and-reinsert at head or tail. -/
def moveTodo (m : Meta) (todoId position : String) : Bool × Meta :=
  match extractTodo todoId m.todos with
  | some (t, rest) =>
    (true, { m with todos := if position == "start" then t :: rest else rest ++ [t] })
  | none => (false, m)

/-! ### File audit status

Paths are modelled as their POSIX components.  `Path(p).absolute()` resolves
a relative path against the current working directory without touching the
components; `relative_to(project_root)` succeeds exactly when the root
components are a prefix, and `as_posix` / `str` join components with
forward slashes. -/

/-- A path argument: either absolute or relative to the working directory. -/
inductive InPath where
  | abs (comps : List String)
  | rel (comps : List String)
  deriving Repr, DecidableEq

/-- `Path(p).absolute()`. -/
def toAbs (cwd : List String) : InPath → List String
  | .abs c => c
  | .rel c => cwd ++ c

/-- String equality of one component list as a prefix of another
(`relative_to` succeeds iff the root components are a prefix). -/
def compPrefix : List String → List String → Bool
  | [], _ => true
  | _, [] => false
  | r :: rs, a :: as_ => r == a && compPrefix rs as_

/-- The storage key used on both write and read: the path relative to the
project root in POSIX form, or the absolute path string when the file lies
outside the root. -/
def normKey (root absPath : List String) : String :=
  if compPrefix root absPath then
    String.intercalate "/" (absPath.drop root.length)
  else
    "/" ++ String.intercalate "/" absPath

/-- A filesystem snapshot: absolute path components to file bytes. -/
def FS : Type := List (List String × List Nat)

/-- Read a file's bytes. -/
def fsGet : FS → List String → Option (List Nat)
  | [], _ => none
  | (p, c) :: tl, q => if p == q then some c else fsGet tl q

/-- Stand-in for the SHA-256 hex digest of `_calculate_file_hash`:
deterministic, injective on contents and never empty, which is everything
the store relies on.  The empty string is the missing-file result, exactly
as in the source. -/
def sha256Hex (content : List Nat) : String := "#" ++ toString content

/-- `_calculate_file_hash`: digest of the file bytes, or `""` when the file
does not exist. -/
def calculateFileHash (fs : FS) (absPath : List String) : String :=
  match fsGet fs absPath with
  | some c => sha256Hex c
  | none => ""

theorem sha256Hex_ne_empty (c : List Nat) : sha256Hex c ≠ "" := by
  intro h
  have hd := congrArg String.data h
  rw [sha256Hex, String.data_append] at hd
  simp at hd

/-- `update_file_status`: with `audited=True`, hash the file (failing with
`False`, before any save, when it does not exist) and overwrite the record
under the normalized key; with `audited=False`, drop the record if present
and save either way. -/
def updateFileStatus (m : Meta) (fs : FS) (cwd root : List String)
    (p : InPath) (audited : Bool) (now : String) : Bool × Meta :=
  let absPath := toAbs cwd p
  let relPath := normKey root absPath
  if audited then
    let fileHash := calculateFileHash fs absPath
    if fileHash == "" then (false, m)
    else
      let rec0 : FileRec :=
        { audited := true, audited_at := now, file_hash := some fileHash }
      (true, { m with file_status := alistSet m.file_status relPath rec0 })
  else
    (true, { m with file_status := alistDel m.file_status relPath })

/-- `get_file_status`: look up the normalized key; a missing record or a
vanished file yields `None`; a digest mismatch (against a truthy stored
hash) forces `audited` to `False` on a copy of the record and adds the
`modified_after_audit` flag and the new digest.  Nothing is ever saved. -/
def getFileStatus (m : Meta) (fs : FS) (cwd root : List String)
    (p : InPath) : Option FileRec × Meta :=
  let absPath := toAbs cwd p
  let relPath := normKey root absPath
  match alistGet m.file_status relPath with
  | none => (none, m)
  | some status =>
    let currentHash := calculateFileHash fs absPath
    if currentHash == "" then (none, m)
    else
      let mismatch :=
        match status.file_hash with
        | some stored => !(stored == "") && !(currentHash == stored)
        | none => false
      if mismatch then
        (some { status with
                  audited := false
                  modified_after_audit := some true
                  current_hash := some currentHash }, m)
      else (some status, m)

/-! ### List-variable operations (the variant in `src/core`) -/

/-- `create_list_variable(name, items)`: unconditional upsert; note that
this variant accepts no confirmation flag and never writes the
`need_user_confirmation` key. -/
def createListVariable (m : Meta) (name : String) (items : List String)
    (now : String) : Bool × Meta :=
  let v : ListVarR := { items := items, created_at := now, updated_at := now }
  (true, { m with list_variables := alistSet m.list_variables name v })

/-- `read_list_variable`. -/
def readListVariable (m : Meta) (name : String) : Option ListVarR × Meta :=
  (alistGet m.list_variables name, m)

/-- `update_list_variable(name, items)`. -/
def updateListVariable (m : Meta) (name : String) (items : List String)
    (now : String) : Bool × Meta :=
  match alistGet m.list_variables name with
  | some v =>
    let v1 := { v with items := items, updated_at := now }
    (true, { m with list_variables := alistSet m.list_variables name v1 })
  | none => (false, m)

/-- `delete_list_variable`. -/
def deleteListVariable (m : Meta) (name : String) : Bool × Meta :=
  match alistGet m.list_variables name with
  | some _ => (true, { m with list_variables := alistDel m.list_variables name })
  | none => (false, m)

/-- `append_to_list_variable`. -/
def appendToListVariable (m : Meta) (name item now : String) : Bool × Meta :=
  match alistGet m.list_variables name with
  | some v =>
    let v1 := { v with items := v.items ++ [item], updated_at := now }
    (true, { m with list_variables := alistSet m.list_variables name v1 })
  | none => (false, m)

/-- `remove_from_list_variable`: Python `list.remove` drops the first
occurrence; requires both the variable and the item to exist. -/
def removeFromListVariable (m : Meta) (name item now : String) : Bool × Meta :=
  match alistGet m.list_variables name with
  | some v =>
    if v.items.contains item then
      let v1 := { v with items := v.items.erase item, updated_at := now }
      (true, { m with list_variables := alistSet m.list_variables name v1 })
    else (false, m)
  | none => (false, m)

/-! ### The ledger operations as one type, for document-wide invariants -/

/-- One public store operation together with its arguments (and, for the
file tracker, the filesystem it sees). -/
inductive Op where
  | createPlanOp (content : String) (title : Option String) (now : String)
  | readPlanOp (planId : String)
  | readAllPlansOp (now : String)
  | updatePlanOp (planId content : String) (title : Option String) (now : String)
  | deletePlanOp (planId now : String)
  | createDocOp (dir content : String)
  | updateDocOp (dir content : String)
  | updateRecentChangesOp (current archived : List String)
  | createTodoOp (content related position now : String)
  | readTodosOp (status : String)
  | updateTodoOp (todoId status : String) (gitLog : Option String) (now : String)
  | deleteTodoOp (todoId : String)
  | moveTodoOp (todoId position : String)
  | updateFileStatusOp (fs : FS) (cwd root : List String) (p : InPath)
      (audited : Bool) (now : String)
  | getFileStatusOp (fs : FS) (cwd root : List String) (p : InPath)
  | createListVariableOp (name : String) (items : List String) (now : String)
  | readListVariableOp (name : String)
  | updateListVariableOp (name : String) (items : List String) (now : String)
  | deleteListVariableOp (name : String)
  | appendToListVariableOp (name item now : String)
  | removeFromListVariableOp (name item now : String)

/-- The document persisted after running one operation. -/
def runOp (op : Op) (m : Meta) : Meta :=
  match op with
  | .createPlanOp c t now => (createPlan m c t now).2
  | .readPlanOp pid => (readPlan m pid).2
  | .readAllPlansOp now => (readAllPlans m now).2
  | .updatePlanOp pid c t now => (updatePlan m pid c t now).2
  | .deletePlanOp pid now => (deletePlan m pid now).2
  | .createDocOp d c => (createDoc m d c).2
  | .updateDocOp d c => (updateDoc m d c).2
  | .updateRecentChangesOp cur arch => (updateRecentChanges m cur arch).2
  | .createTodoOp c r pos now => (createTodo m c r pos now).2
  | .readTodosOp s => (readTodos m s).2
  | .updateTodoOp tid s g now => (updateTodo m tid s g now).2
  | .deleteTodoOp tid => (deleteTodo m tid).2
  | .moveTodoOp tid pos => (moveTodo m tid pos).2
  | .updateFileStatusOp fs cwd root p a now =>
      (updateFileStatus m fs cwd root p a now).2
  | .getFileStatusOp fs cwd root p => (getFileStatus m fs cwd root p).2
  | .createListVariableOp n items now => (createListVariable m n items now).2
  | .readListVariableOp n => (readListVariable m n).2
  | .updateListVariableOp n items now => (updateListVariable m n items now).2
  | .deleteListVariableOp n => (deleteListVariable m n).2
  | .appendToListVariableOp n i now => (appendToListVariable m n i now).2
  | .removeFromListVariableOp n i now => (removeFromListVariable m n i now).2

/-- The status strings `update_todo` is documented to receive; the MCP tool
schema restricts the argument to exactly these. -/
def validOpArgs : Op → Prop
  | .updateTodoOp _ s _ _ => s = "pending" ∨ s = "completed"
  | _ => True

/-- The todo status invariant of the data model. -/
def todoStatusInv (m : Meta) : Bool :=
  m.todos.all (fun t => t.status == "pending" || t.status == "completed")

/-! ## Claim theorems -/

/-- Document used to exercise the dangling-reference case of `delete_plan`:
a todo references `plan_001` but no plan record carries that id. -/
def mDangling : Meta :=
  { defaultMeta with
      plans := .list []
      todos := [{ id := "todo_001", content := "x", related_plan := "plan_001"
                  status := "pending", created_at := "t" }] }

/-- C1 counterexample: in a document where a todo references `plan_001` but
no plan carries that id, `delete_plan("plan_001")` returns `False` (the
not-found result) instead of failing with a referential-integrity error
carrying the count of blocking todos. -/
theorem deletePlan_dangling_reference_returns_false :
    mDangling.todos.any (fun t => t.related_plan == "plan_001") = true ∧
    deletePlan mDangling "plan_001" "t" = (.ok false, mDangling) :=
  ⟨rfl, rfl⟩

/-- C1 (amended): whenever a plan with the given id exists and at least one
todo references that id, `delete_plan` raises the `ValueError` whose message
carries the count of blocking todos, and the persisted document is exactly
the input document. -/
theorem deletePlan_blocked_by_todos (m : Meta) (pid now : String) (i : Nat)
    (hfind : (plansToList m.plans now).findIdx? (fun p => p.id == some pid) = some i)
    (hlinked : m.todos.filter (fun t => t.related_plan == pid) ≠ []) :
    deletePlan m pid now =
      (.error (.valueError ("Cannot delete plan " ++ pid ++ ": " ++
        decRepr (m.todos.filter (fun t => t.related_plan == pid)).length ++
        " todos are linked to it")), m) := by
  have hlen : ((m.todos.filter (fun t => t.related_plan == pid)).length == 0) = false := by
    rw [beq_eq_false_iff_ne]
    intro h
    exact hlinked (List.length_eq_zero.mp h)
  simp only [deletePlan, hfind, hlen, Bool.false_eq_true, if_false]

/-- Document with one plan (`plan_001`) and one todo linked to it. -/
def mLinked : Meta :=
  { defaultMeta with
      plans := .list [{ id := some "plan_001", content := "Ship v1"
                        title := some "Launch", created_at := some "t"
                        updated_at := some "t" }]
      todos := [{ id := "todo_001", content := "write changelog"
                  related_plan := "plan_001", status := "pending"
                  created_at := "t" }] }

theorem deletePlan_blocked_by_todos_witness :
    deletePlan mLinked "plan_001" "t" =
      (.error (.valueError ("Cannot delete plan plan_001: " ++
        decRepr (mLinked.todos.filter (fun t => t.related_plan == "plan_001")).length ++
        " todos are linked to it")), mLinked) := by
  have h := deletePlan_blocked_by_todos mLinked "plan_001" "t" 0 (by decide) (by decide)
  simpa using h

/-- C2: `_load_meta` heals a missing file by recreating the default
document, but on a corrupt (present but unparsable) file the
`_ensure_meta_file` call is a no-op because the file exists, so the second
`json.load` raises `JSONDecodeError` instead of returning the recreated
default - the self-healing the spec describes never happens for corrupt
files. -/
theorem loadMeta_corrupt_file_raises :
    loadMeta DiskState.absent = .ok (defaultMeta, .valid defaultMeta) ∧
    loadMeta DiskState.invalid = .error .jsonDecodeError :=
  ⟨rfl, rfl⟩

/-- Legacy-shaped document used for the plan-shape claims. -/
def mLegacy : Meta := { defaultMeta with plans := .dict [("src", "doc")] }

/-- C3 counterexample: `read_all_plans` on a legacy-shaped document returns
the converted list but persists nothing, so the stored `plans` collection
is still the legacy mapping and the legacy shape re-emerges on the next
load. -/
theorem readAllPlans_does_not_persist_upgrade :
    (readAllPlans mLegacy "t").2 = mLegacy ∧
    Plans.isListShape (readAllPlans mLegacy "t").2.plans = false :=
  ⟨rfl, rfl⟩

/-- C3 (amended): only the mutating plan operations persist the upgraded
list shape - `create_plan` always, `update_plan` and `delete_plan` exactly
when they succeed; `read_all_plans` converts only its in-memory copy and
`read_plan` translates on the fly, both leaving the persisted document
untouched. -/
theorem plan_shape_upgrade_persistence (m : Meta) (pid c c2 : String)
    (t t2 : Option String) (now : String) :
    Plans.isListShape (createPlan m c t now).2.plans = true ∧
    ((updatePlan m pid c2 t2 now).1 = true →
      Plans.isListShape (updatePlan m pid c2 t2 now).2.plans = true) ∧
    ((deletePlan m pid now).1 = .ok true →
      Plans.isListShape (deletePlan m pid now).2.plans = true) ∧
    (readAllPlans m now).2 = m ∧
    (readPlan m pid).2 = m := by
  refine ⟨rfl, ?_, ?_, rfl, ?_⟩
  · intro h
    unfold updatePlan at h ⊢
    match hu : updateFirstPlan pid c2 t2 now (plansToList m.plans now) with
    | some ps => simp [hu, Plans.isListShape]
    | none => rw [hu] at h; simp at h
  · intro h
    unfold deletePlan at h ⊢
    match hu : (plansToList m.plans now).findIdx? (fun p => p.id == some pid) with
    | some i =>
      rw [hu] at h ⊢
      by_cases hl : ((m.todos.filter (fun t => t.related_plan == pid)).length == 0) = true
      · simp [hl, Plans.isListShape]
      · rw [Bool.not_eq_true] at hl
        simp [hl] at h
    | none => rw [hu] at h; simp at h
  · unfold readPlan
    match m.plans with
    | .list ps => rfl
    | .dict old => rfl

theorem plan_shape_upgrade_persistence_witness :
    Plans.isListShape (createPlan mLegacy "x" none "t").2.plans = true ∧
    Plans.isListShape (updatePlan mLegacy "legacy_src" "c2" none "t").2.plans = true ∧
    Plans.isListShape (deletePlan mLegacy "legacy_src" "t").2.plans = true ∧
    (readAllPlans mLegacy "t").2 = mLegacy := by
  have h := plan_shape_upgrade_persistence mLegacy "legacy_src" "x" "c2" none none "t"
  exact ⟨h.1, h.2.1 rfl, h.2.2.1 rfl, h.2.2.2.1⟩

/-- C4: the `create_list_variable` in `src/core/project_manager.py` accepts
no confirmation flag and the record it stores carries only `items`,
`created_at` and `updated_at` - the `need_user_confirmation` key expected by
its own callers (`handle_create_list_variable` passes the flag as a third
positional argument and `handle_read_list_variable` reads the key) is never
written. -/
theorem createListVariable_stores_no_confirmation_field :
    (readListVariable
      (createListVariable defaultMeta "skip_rules" ["ignore whitespace"] "t").2
      "skip_rules").1 =
      some { items := ["ignore whitespace"], need_user_confirmation := none
             created_at := "t", updated_at := "t" } :=
  rfl

/-- C5: for every existing file (given by a relative or an absolute path,
under or outside the project root), marking it audited and immediately
asking for its status with the file unmodified succeeds and reports
`audited = true` with no `modified_after_audit` flag: the normalization is
the same function on write and on read, so the lookup finds the record
just written. -/
theorem mark_then_get_status_clean (m : Meta) (fs : FS) (cwd root : List String)
    (p : InPath) (c : List Nat) (now : String)
    (hf : fsGet fs (toAbs cwd p) = some c) :
    (updateFileStatus m fs cwd root p true now).1 = true ∧
    ((getFileStatus (updateFileStatus m fs cwd root p true now).2 fs cwd root p).1).map
      (fun r => (r.audited, r.modified_after_audit)) = some (true, none) := by
  have hch : calculateFileHash fs (toAbs cwd p) = sha256Hex c := by
    rw [calculateFileHash, hf]
  have hne : (sha256Hex c == "") = false := by
    rw [beq_eq_false_iff_ne]
    exact sha256Hex_ne_empty c
  constructor
  · simp only [updateFileStatus, hch, hne, Bool.false_eq_true, if_false, if_true]
  · simp only [updateFileStatus, getFileStatus, hch, hne, Bool.false_eq_true,
      if_false, if_true, alistGet_set, beq_self_eq_true, Bool.not_true,
      Bool.and_false]
    rfl

theorem mark_then_get_status_clean_witness :
    (updateFileStatus defaultMeta [(["r", "a.py"], [1, 2])] [] ["r"]
      (.abs ["r", "a.py"]) true "t").1 = true ∧
    ((getFileStatus (updateFileStatus defaultMeta [(["r", "a.py"], [1, 2])] [] ["r"]
      (.abs ["r", "a.py"]) true "t").2 [(["r", "a.py"], [1, 2])] [] ["r"]
      (.abs ["r", "a.py"])).1).map
      (fun r => (r.audited, r.modified_after_audit)) = some (true, none) :=
  mark_then_get_status_clean defaultMeta [(["r", "a.py"], [1, 2])] [] ["r"]
    (.abs ["r", "a.py"]) [1, 2] "t" rfl

/-- C6: when the current digest of a tracked, existing file differs from
the (truthy) stored `file_hash`, `get_file_status` returns the record with
`audited` forced to `false`, the `modified_after_audit` flag and the fresh
digest - and the persisted document, in particular the stored record under
that key, is exactly the input document (the check saves nothing). -/
theorem get_status_detects_modification (m : Meta) (fs : FS)
    (cwd root : List String) (p : InPath) (r : FileRec) (h : String)
    (c : List Nat)
    (hrec : alistGet m.file_status (normKey root (toAbs cwd p)) = some r)
    (hhash : r.file_hash = some h) (htruthy : h ≠ "")
    (hf : fsGet fs (toAbs cwd p) = some c)
    (hdiff : sha256Hex c ≠ h) :
    getFileStatus m fs cwd root p =
      (some { r with audited := false
                     modified_after_audit := some true
                     current_hash := some (sha256Hex c) }, m) := by
  have hch : calculateFileHash fs (toAbs cwd p) = sha256Hex c := by
    rw [calculateFileHash, hf]
  have hne : (sha256Hex c == "") = false := by
    rw [beq_eq_false_iff_ne]
    exact sha256Hex_ne_empty c
  have hst : (h == "") = false := by rw [beq_eq_false_iff_ne]; exact htruthy
  have hd : (sha256Hex c == h) = false := by
    rw [beq_eq_false_iff_ne]; exact hdiff
  simp only [getFileStatus, hrec, hch, hne, Bool.false_eq_true, if_false,
    hhash, hst, hd, Bool.not_false, Bool.and_self, if_true]

/-- Document with one tracked file whose stored digest no longer matches. -/
def mStale : Meta :=
  { defaultMeta with
      file_status := [("a.py",
        { audited := true, audited_at := "t0", file_hash := some "#[1]" })] }

theorem get_status_detects_modification_witness :
    getFileStatus mStale [(["r", "a.py"], [1, 2])] [] ["r"] (.abs ["r", "a.py"]) =
      (some { audited := false, audited_at := "t0", file_hash := some "#[1]"
              modified_after_audit := some true
              current_hash := some (sha256Hex [1, 2]) }, mStale) :=
  get_status_detects_modification mStale [(["r", "a.py"], [1, 2])] [] ["r"]
    (.abs ["r", "a.py"])
    { audited := true, audited_at := "t0", file_hash := some "#[1]" }
    "#[1]" [1, 2] rfl rfl (by decide) rfl (by decide)

/-! ### C7: plan id generation over a sequence of creates -/

/-- Run a sequence of `create_plan` calls (content, optional title) and
collect the returned ids. -/
def createPlanIter (now : String) :
    List (String × Option String) → Meta → List String × Meta
  | [], m => ([], m)
  | a :: rest, m =>
    let r := createPlan m a.1 a.2 now
    let r2 := createPlanIter now rest r.2
    (r.1 :: r2.1, r2.2)

/-- Every record carries an `id` key. -/
def plansAllHaveIds (ps : List PlanR) : Bool := ps.all (fun p => p.id.isSome)

theorem filterMap_id_length {ps : List PlanR}
    (h : plansAllHaveIds ps = true) :
    (ps.filterMap (fun p => p.id)).length = ps.length := by
  induction ps with
  | nil => rfl
  | cons p tl ih =>
    simp only [plansAllHaveIds, List.all_cons, Bool.and_eq_true] at h
    obtain ⟨x, hx⟩ := Option.isSome_iff_exists.mp h.1
    simp only [List.filterMap_cons, hx, List.length_cons]
    rw [ih h.2]

theorem createPlan_on_ids (m : Meta) (ps : List PlanR) (c : String)
    (t : Option String) (now : String) (hp : m.plans = .list ps)
    (hids : plansAllHaveIds ps = true) :
    (createPlan m c t now).1 = "plan_" ++ pad3 (ps.length + 1) ∧
    ∃ q : PlanR, (createPlan m c t now).2.plans = .list (ps ++ [q]) ∧
      q.id.isSome = true := by
  have hpl : plansToList m.plans now = ps := by rw [hp]; rfl
  refine ⟨?_, ?_⟩
  · simp only [createPlan, hpl, filterMap_id_length hids]
  · simp only [createPlan, hpl]
    exact ⟨_, rfl, rfl⟩

theorem createPlanIter_ids (now : String) :
    ∀ (args : List (String × Option String)) (m : Meta) (ps : List PlanR),
    m.plans = .list ps → plansAllHaveIds ps = true →
    (createPlanIter now args m).1 =
      (List.range args.length).map (fun j => "plan_" ++ pad3 (ps.length + j + 1)) := by
  intro args
  induction args with
  | nil => intro m ps _ _; rfl
  | cons a rest ih =>
    intro m ps hp hids
    obtain ⟨hid, q, hplans, hq⟩ := createPlan_on_ids m ps a.1 a.2 now hp hids
    have hids2 : plansAllHaveIds (ps ++ [q]) = true := by
      simp only [plansAllHaveIds, List.all_append, Bool.and_eq_true]
      exact ⟨hids, by simp [hq]⟩
    have hrec := ih (createPlan m a.1 a.2 now).2 (ps ++ [q]) hplans hids2
    show (createPlan m a.1 a.2 now).1 ::
        (createPlanIter now rest (createPlan m a.1 a.2 now).2).1 = _
    rw [hid, hrec]
    have hlen : (ps ++ [q]).length = ps.length + 1 := by simp
    rw [hlen]
    simp only [List.length_cons]
    rw [List.range_succ_eq_map, List.map_cons, List.map_map]
    refine congrArg₂ List.cons ?_ ?_
    · have : ps.length + 0 + 1 = ps.length + 1 := by omega
      rw [this]
    · apply List.map_congr_left
      intro j _
      simp only [Function.comp_apply]
      have : ps.length + (j + 1) + 1 = ps.length + 1 + j + 1 := by omega
      rw [this]

/-- Recover the zero-padded counter from a generated plan id. -/
theorem decValue_drop_planTag (n : Nat) :
    decValue (("plan_" ++ pad3 n).data.drop 5) = n := by
  rw [String.data_append]
  have h5 : ("plan_".data).length = 5 := rfl
  rw [← h5, List.drop_left, decValue_pad3]

/-- C7: starting from a document with no plans, any sequence of
`create_plan` calls returns the ids `plan_001, plan_002, ...`; they are
pairwise distinct and the zero-padded counters they embed are strictly
increasing. -/
theorem createPlan_ids_unique_increasing (args : List (String × Option String))
    (m : Meta) (now : String) (h : m.plans = .list []) :
    (createPlanIter now args m).1 =
      (List.range args.length).map (fun j => "plan_" ++ pad3 (j + 1)) ∧
    ((createPlanIter now args m).1).Nodup ∧
    List.Pairwise (· < ·)
      (((createPlanIter now args m).1).map (fun s => decValue (s.data.drop 5))) := by
  have hids := createPlanIter_ids now args m [] h rfl
  have hform : (createPlanIter now args m).1 =
      (List.range args.length).map (fun j => "plan_" ++ pad3 (j + 1)) := by
    rw [hids]
    apply List.map_congr_left
    intro j _
    have : List.length ([] : List PlanR) + j + 1 = j + 1 := by simp
    rw [this]
  refine ⟨hform, ?_, ?_⟩
  · rw [hform]
    apply List.Nodup.map _ (List.nodup_range _)
    intro a b hab
    have := congrArg (fun s => decValue (s.data.drop 5)) hab
    simp only [decValue_drop_planTag] at this
    omega
  · rw [hform, List.map_map]
    have hcnt : ((fun s => decValue (s.data.drop 5)) ∘
        fun j => "plan_" ++ pad3 (j + 1)) = (fun j => j + 1) := by
      funext j
      simp only [Function.comp_apply, decValue_drop_planTag]
    rw [hcnt, List.pairwise_map]
    exact (List.pairwise_lt_range _).imp (by omega)

theorem createPlan_ids_unique_increasing_witness :
    (createPlanIter "t" [("a", none), ("b", some "T")]
      { defaultMeta with plans := .list [] }).1 =
      (List.range 2).map (fun j => "plan_" ++ pad3 (j + 1)) ∧
    ((createPlanIter "t" [("a", none), ("b", some "T")]
      { defaultMeta with plans := .list [] }).1).Nodup ∧
    List.Pairwise (· < ·)
      (((createPlanIter "t" [("a", none), ("b", some "T")]
        { defaultMeta with plans := .list [] }).1).map
        (fun s => decValue (s.data.drop 5))) :=
  createPlan_ids_unique_increasing [("a", none), ("b", some "T")]
    { defaultMeta with plans := .list [] } "t" rfl

/-! ### C8: `create_todo` plan resolution -/

/-- A related-plan id contains at most one `legacy_` occurrence: whatever
follows the `legacy_` prefix is free of further occurrences.  Ids violating
this are mangled by the `replace`-all lookup of `create_todo`. -/
def legacyOnceOk (related : String) : Bool :=
  if legacyTag.isPrefixOf related.data then
    !(hasSub legacyTag (related.data.drop legacyTag.length))
  else true

theorem any_eq_find_isSome {β : Type} (p : β → Bool) (l : List β) :
    l.any p = (l.find? p).isSome := by
  induction l with
  | nil => rfl
  | cons x tl ih =>
    cases h : p x <;> simp [List.any_cons, List.find?_cons, h, ih]

theorem any_congr {β : Type} {p q : β → Bool} (l : List β)
    (h : ∀ a ∈ l, p a = q a) : l.any p = l.any q := by
  induction l with
  | nil => rfl
  | cons x tl ih =>
    simp only [List.any_cons, h x (by simp)]
    rw [ih (fun a ha => h a (by simp [ha]))]

/-- C8 counterexample: in the legacy shape with directory key `legacy_x`,
the id `legacy_legacy_x` resolves through `read_plan` (the `legacy_` prefix
plus the directory), yet `create_todo` raises "Plan ID not found" for it
because its lookup strips every `legacy_` occurrence, producing `x`. -/
theorem createTodo_mangles_repeated_legacy_tag :
    ((readPlan { defaultMeta with plans := .dict [("legacy_x", "c")] }
      "legacy_legacy_x").1).isSome = true ∧
    createTodo { defaultMeta with plans := .dict [("legacy_x", "c")] }
      "todo" "legacy_legacy_x" "end" "t" =
      (.error (.valueError "Plan ID not found: legacy_legacy_x"),
        { defaultMeta with plans := .dict [("legacy_x", "c")] }) :=
  ⟨rfl, rfl⟩

/-- C8 (amended): `create_todo` fails with the "plan not found" error
exactly when `related_plan` resolves to no existing plan (in the sense of
`read_plan`, which supports both shapes), for every related-plan id with at
most one `legacy_` occurrence; ids with repeated occurrences are mangled by
the lookup (see the counterexample).  On failure the persisted document is
unchanged and the error carries the id. -/
theorem createTodo_resolution (m : Meta) (content related position now : String)
    (hsc : Plans.isListShape m.plans = false → legacyOnceOk related = true) :
    ((createTodo m content related position now).1.isOk = true ↔
      ((readPlan m related).1).isSome = true) ∧
    ((createTodo m content related position now).1.isOk = false →
      createTodo m content related position now =
        (.error (.valueError ("Plan ID not found: " ++ related)), m)) := by
  match hm : m.plans with
  | .list ps =>
    simp only [createTodo, readPlan, hm]
    rw [any_eq_find_isSome]
    cases hfind : (ps.find? (fun p => p.id == some related)).isSome <;>
      simp [hfind, Except.isOk, Except.toBool]
  | .dict old =>
    have honce : legacyOnceOk related = true := by
      apply hsc
      rw [hm]
      rfl
    simp only [createTodo, readPlan, hm]
    cases hpre : legacyTag.isPrefixOf related.data
    · have hnone : old.find? (fun kv => ("legacy_" ++ kv.1) == related) = none := by
        rw [List.find?_eq_none]
        intro kv _ hkv
        rw [beq_iff_eq] at hkv
        have hdata : related.data = legacyTag ++ kv.1.data := by
          rw [← hkv, String.data_append]
          rfl
        rw [hdata, isPrefixOf_append] at hpre
        cases hpre
      simp [hpre, hnone, Except.isOk, Except.toBool]
    · obtain ⟨t, ht⟩ := isPrefixOf_exists_append hpre
      have hsub : hasSub legacyTag t = false := by
        rw [legacyOnceOk, if_pos hpre] at honce
        have hdrop : related.data.drop legacyTag.length = t := by
          rw [ht, List.drop_left]
        rw [hdrop] at honce
        cases hhs : hasSub legacyTag t
        · rfl
        · rw [hhs] at honce; cases honce
      have hstrip : (⟨replaceAll legacyTag [] related.data⟩ : String) = ⟨t⟩ := by
        rw [ht, replaceAll_append_of_prefix [] (by decide) hsub]
        rfl
      have hpeq : ∀ kv : String × String, kv ∈ old →
          (kv.1 == (⟨replaceAll legacyTag [] related.data⟩ : String)) =
          (("legacy_" ++ kv.1) == related) := by
        intro kv _
        rw [hstrip, Bool.eq_iff_iff, beq_iff_eq, beq_iff_eq]
        constructor
        · intro hk
          apply String.ext
          rw [String.data_append, hk, ht]
          rfl
        · intro hk
          apply String.ext
          have := congrArg String.data hk
          rw [String.data_append, ht] at this
          exact List.append_cancel_left this
      simp only [hpre, if_true]
      rw [any_congr old hpeq, any_eq_find_isSome]
      cases hfind : (old.find? (fun kv => ("legacy_" ++ kv.1) == related)).isSome <;>
        simp [hfind, Except.isOk, Except.toBool]

/-- Document in the list shape with a single plan `plan_001`. -/
def mOnePlan : Meta :=
  { defaultMeta with
      plans := .list [{ id := some "plan_001", content := "c" }] }

theorem createTodo_resolution_witness :
    (createTodo mOnePlan "write changelog" "plan_001" "end" "t").1.isOk = true :=
  (createTodo_resolution mOnePlan "write changelog" "plan_001" "end" "t"
    (by decide)).1.mpr (by decide)

/-! ### C9: the todo status invariant -/

theorem status_applyTodoUpdate (s : String) (g : Option String) (now : String)
    (t : TodoR) : (applyTodoUpdate s g now t).status = s := by
  unfold applyTodoUpdate
  by_cases hc : (s == "completed") = true
  · simp only [hc, if_true]
    cases g with
    | none => rfl
    | some x =>
      by_cases hx : (x == "") = true
      · simp [hx]
      · simp only [Bool.not_eq_true] at hx
        simp [hx]
  · simp only [Bool.not_eq_true] at hc
    simp [hc]

theorem id_applyTodoUpdate (s : String) (g : Option String) (now : String)
    (t : TodoR) : (applyTodoUpdate s g now t).id = t.id := by
  unfold applyTodoUpdate
  by_cases hc : (s == "completed") = true
  · simp only [hc, if_true]
    cases g with
    | none => rfl
    | some x =>
      by_cases hx : (x == "") = true
      · simp [hx]
      · simp only [Bool.not_eq_true] at hx
        simp [hx]
  · simp only [Bool.not_eq_true] at hc
    simp [hc]

theorem updateFirstTodo_all {p : TodoR → Bool} {tid s : String}
    {g : Option String} {now : String}
    (hp : ∀ t : TodoR, p (applyTodoUpdate s g now t) = true) :
    ∀ (l l2 : List TodoR), updateFirstTodo tid s g now l = some l2 →
    l.all p = true → l2.all p = true := by
  intro l
  induction l with
  | nil => intro l2 h; cases h
  | cons t tl ih =>
    intro l2 h hall
    simp only [List.all_cons, Bool.and_eq_true] at hall
    simp only [updateFirstTodo] at h
    by_cases hid : (t.id == tid) = true
    · rw [if_pos hid] at h
      cases h
      simp only [List.all_cons, Bool.and_eq_true]
      exact ⟨hp t, hall.2⟩
    · rw [if_neg hid] at h
      match hrec : updateFirstTodo tid s g now tl with
      | some l3 =>
        rw [hrec] at h
        cases h
        simp only [List.all_cons, Bool.and_eq_true]
        exact ⟨hall.1, ih l3 hrec hall.2⟩
      | none => rw [hrec] at h; cases h

theorem removeFirstTodo_all {p : TodoR → Bool} {tid : String} :
    ∀ (l l2 : List TodoR), removeFirstTodo tid l = some l2 →
    l.all p = true → l2.all p = true := by
  intro l
  induction l with
  | nil => intro l2 h; cases h
  | cons t tl ih =>
    intro l2 h hall
    simp only [List.all_cons, Bool.and_eq_true] at hall
    simp only [removeFirstTodo] at h
    by_cases hid : (t.id == tid) = true
    · rw [if_pos hid] at h
      cases h
      exact hall.2
    · rw [if_neg hid] at h
      match hrec : removeFirstTodo tid tl with
      | some l3 =>
        rw [hrec] at h
        cases h
        simp only [List.all_cons, Bool.and_eq_true]
        exact ⟨hall.1, ih l3 hrec hall.2⟩
      | none => rw [hrec] at h; cases h

theorem extractTodo_all {p : TodoR → Bool} {tid : String} :
    ∀ (l : List TodoR) (t : TodoR) (rest : List TodoR),
    extractTodo tid l = some (t, rest) →
    l.all p = true → p t = true ∧ rest.all p = true := by
  intro l
  induction l with
  | nil => intro t rest h; cases h
  | cons x tl ih =>
    intro t rest h hall
    simp only [List.all_cons, Bool.and_eq_true] at hall
    simp only [extractTodo] at h
    by_cases hid : (x.id == tid) = true
    · rw [if_pos hid] at h
      cases h
      exact ⟨hall.1, hall.2⟩
    · rw [if_neg hid] at h
      match hrec : extractTodo tid tl with
      | some r =>
        rw [hrec] at h
        cases h
        have := ih r.1 r.2 hrec hall.2
        simp only [List.all_cons, Bool.and_eq_true]
        exact ⟨this.1, hall.1, this.2⟩
      | none => rw [hrec] at h; cases h

/-- Document with one pending todo linked to `plan_001`. -/
def mOneTodo : Meta :=
  { defaultMeta with
      plans := .list [{ id := some "plan_001", content := "c" }]
      todos := [{ id := "todo_001", content := "x", related_plan := "plan_001"
                  status := "pending", created_at := "t" }] }

/-- C9 counterexample: `update_todo` stores its status argument verbatim, so
calling it with a string outside {pending, completed} breaks the status
invariant. -/
theorem updateTodo_stores_arbitrary_status :
    todoStatusInv mOneTodo = true ∧
    todoStatusInv (runOp (.updateTodoOp "todo_001" "wip" none "t2") mOneTodo) = false := by
  decide

/-- C9 (amended): every ledger operation preserves the todo status
invariant provided `update_todo` is only called with `"pending"` or
`"completed"` - the restriction the MCP tool schema enforces; `update_todo`
itself performs no validation and stores its argument verbatim. -/
theorem ledger_ops_preserve_todo_status (op : Op) (m : Meta)
    (hv : validOpArgs op) (hinv : todoStatusInv m = true) :
    todoStatusInv (runOp op m) = true := by
  cases op with
  | createPlanOp c t now => simpa [runOp, createPlan, todoStatusInv] using hinv
  | readPlanOp pid =>
    simp only [runOp, readPlan]
    split <;> simpa [todoStatusInv] using hinv
  | readAllPlansOp now => simpa [runOp, readAllPlans, todoStatusInv] using hinv
  | updatePlanOp pid c t now =>
    simp only [runOp, updatePlan]
    split <;> simpa [todoStatusInv] using hinv
  | deletePlanOp pid now =>
    simp only [runOp, deletePlan]
    split <;> (try split) <;> simpa [todoStatusInv] using hinv
  | createDocOp d c => simpa [runOp, createDoc, todoStatusInv] using hinv
  | updateDocOp d c =>
    simp only [runOp, updateDoc]
    split <;> simpa [todoStatusInv] using hinv
  | updateRecentChangesOp cur arch =>
    simpa [runOp, updateRecentChanges, todoStatusInv] using hinv
  | createTodoOp c r pos now =>
    simp only [runOp, createTodo]
    repeat' split
    all_goals simpa [todoStatusInv] using hinv
  | readTodosOp s => simpa [runOp, readTodos, todoStatusInv] using hinv
  | updateTodoOp tid s g now =>
    have hp : ∀ t : TodoR,
        ((fun t => t.status == "pending" || t.status == "completed")
          (applyTodoUpdate s g now t)) = true := by
      intro t
      simp only [status_applyTodoUpdate]
      cases hv with
      | inl h => simp [h]
      | inr h => simp [h]
    simp only [runOp, updateTodo]
    split
    · next ts hu => exact updateFirstTodo_all hp m.todos ts hu hinv
    · exact hinv
  | deleteTodoOp tid =>
    simp only [runOp, deleteTodo]
    split
    · next ts hu => exact removeFirstTodo_all m.todos ts hu hinv
    · exact hinv
  | moveTodoOp tid pos =>
    simp only [runOp, moveTodo]
    split
    · next t rest hu =>
      have h := extractTodo_all m.todos t rest hu hinv
      split
      · simp [todoStatusInv, List.all_cons, h.1, h.2]
      · simp [todoStatusInv, List.all_append, h.1, h.2]
    · exact hinv
  | updateFileStatusOp fs cwd root p a now =>
    simp only [runOp, updateFileStatus]
    split <;> (try split) <;> simpa [todoStatusInv] using hinv
  | getFileStatusOp fs cwd root p =>
    simp only [runOp, getFileStatus]
    split <;> (try split) <;> (try split) <;> simpa [todoStatusInv] using hinv
  | createListVariableOp n items now =>
    simpa [runOp, createListVariable, todoStatusInv] using hinv
  | readListVariableOp n => simpa [runOp, readListVariable, todoStatusInv] using hinv
  | updateListVariableOp n items now =>
    simp only [runOp, updateListVariable]
    split <;> simpa [todoStatusInv] using hinv
  | deleteListVariableOp n =>
    simp only [runOp, deleteListVariable]
    split <;> simpa [todoStatusInv] using hinv
  | appendToListVariableOp n i now =>
    simp only [runOp, appendToListVariable]
    split <;> simpa [todoStatusInv] using hinv
  | removeFromListVariableOp n i now =>
    simp only [runOp, removeFromListVariable]
    split <;> (try split) <;> simpa [todoStatusInv] using hinv

theorem ledger_ops_preserve_todo_status_witness :
    todoStatusInv (runOp (.updateTodoOp "todo_001" "completed" none "t2") mOneTodo) = true :=
  ledger_ops_preserve_todo_status (.updateTodoOp "todo_001" "completed" none "t2")
    mOneTodo (Or.inr rfl) (by decide)

/-! ### C10: reverting a completed todo keeps its completion fields -/

theorem applyTodoUpdate_pending (g : Option String) (now : String) (t : TodoR) :
    applyTodoUpdate "pending" g now t = { t with status := "pending" } := by
  unfold applyTodoUpdate
  simp

theorem updateFirstTodo_of_find {tid s : String} {g : Option String}
    {now : String} :
    ∀ (l : List TodoR) (t : TodoR),
    l.find? (fun x => x.id == tid) = some t →
    ∃ l2, updateFirstTodo tid s g now l = some l2 ∧
      l2.find? (fun x => x.id == tid) = some (applyTodoUpdate s g now t) := by
  intro l
  induction l with
  | nil => intro t h; cases h
  | cons x tl ih =>
    intro t h
    by_cases hid : (x.id == tid) = true
    · rw [List.find?_cons, hid] at h
      cases h
      refine ⟨applyTodoUpdate s g now x :: tl, ?_, ?_⟩
      · simp only [updateFirstTodo, hid, if_true]
      · rw [List.find?_cons]
        have : ((applyTodoUpdate s g now x).id == tid) = true := by
          rw [id_applyTodoUpdate]
          exact hid
        rw [this]
    · have hid2 : (x.id == tid) = false := by
        cases hb : (x.id == tid) with
        | true => exact absurd hb hid
        | false => rfl
      rw [List.find?_cons, hid2] at h
      obtain ⟨l3, hl3, hf3⟩ := ih t h
      refine ⟨x :: l3, ?_, ?_⟩
      · simp only [updateFirstTodo, hid2, Bool.false_eq_true, if_false, hl3]
        rfl
      · rw [List.find?_cons, hid2]
        exact hf3

/-- C10: for every todo (in particular one already marked completed, so
carrying `completed_at` and possibly `git_log`), `update_todo(id, "pending")`
succeeds, sets the stored status back to `"pending"` and leaves the
`completed_at` and `git_log` fields of the stored record exactly as they
were - they are never cleared. -/
theorem updateTodo_pending_keeps_completion_fields (m : Meta) (tid : String)
    (t : TodoR) (g : Option String) (now : String)
    (hfind : m.todos.find? (fun x => x.id == tid) = some t) :
    (updateTodo m tid "pending" g now).1 = true ∧
    ((updateTodo m tid "pending" g now).2.todos.find? (fun x => x.id == tid)).map
      (fun x => (x.status, x.completed_at, x.git_log)) =
      some ("pending", t.completed_at, t.git_log) := by
  obtain ⟨l2, hl2, hf2⟩ := @updateFirstTodo_of_find tid "pending" g now m.todos t hfind
  rw [applyTodoUpdate_pending] at hf2
  constructor
  · simp only [updateTodo, hl2]
  · simp only [updateTodo, hl2, hf2]
    rfl

/-- Document with one completed todo carrying a completion time and a git
log. -/
def mCompleted : Meta :=
  { defaultMeta with
      plans := .list [{ id := some "plan_001", content := "c" }]
      todos := [{ id := "todo_001", content := "x", related_plan := "plan_001"
                  status := "completed", created_at := "t"
                  completed_at := some "t1", git_log := some "abc123" }] }

theorem updateTodo_pending_keeps_completion_fields_witness :
    (updateTodo mCompleted "todo_001" "pending" none "t2").1 = true ∧
    ((updateTodo mCompleted "todo_001" "pending" none "t2").2.todos.find?
      (fun x => x.id == "todo_001")).map
      (fun x => (x.status, x.completed_at, x.git_log)) =
      some ("pending", some "t1", some "abc123") :=
  updateTodo_pending_keeps_completion_fields mCompleted "todo_001"
    { id := "todo_001", content := "x", related_plan := "plan_001"
      status := "completed", created_at := "t"
      completed_at := some "t1", git_log := some "abc123" } none "t2" rfl

end CodeMcp
